import Mathlib

/-!
Shallow embedding of the `plog` package (src/plog.go): a priority ring-buffer
log store (`RingBuffer`) and its batching front end (`Logger`), together with
proofs settling the specification's claims about them.

Modelling conventions:
* Go byte slices stored as entries are modelled by an arbitrary type `α`
  (the claims about the store never inspect the bytes); for the `Logger`
  claims, where slice aliasing matters, entries are modelled as explicit
  references into a heap (see `LoggerState` below).
* A `container/ring` ring of Go is a fixed block of `n` nodes with a current
  node; `Prev`/`Next` move the current node.  It is modelled as a list of
  slot values plus the current index (`GoRing`).  A node's `Value` is
  `interface\x7b\x7d`, nil-initialised; under the public API a slot only ever
  holds nil or a byte slice, so slots are `Option α` and the failed type
  assertion of `Pop` corresponds exactly to reading `none`.
* `ring.New(n)` with `n ≤ 0` returns a nil ring and the write that follows
  dereferences it, crashing the program; `PWrite` therefore returns
  `Option`, `none` standing for that crash.  Capacities are `Nat`; negative
  Go capacities behave exactly like `0` (ring.New is nil for both).
* The Go map `map[int]*ring.Ring` is modelled as an association list with
  in-place update (`lookupR`/`insertR`).
* `PWrite` also returns `(len(b), nil)` in Go; the byte count is returned to
  no caller of the repository and is dropped here.
-/

namespace Plog

/-- The two errors `RingBuffer.Pop` can return (plog.go:137 and plog.go:143):
`emptyBuffer` is `fmt.Errorf("Buffer is empty")`, `corruptEntry` is
`fmt.Errorf("pop type assertion failed")`. -/
inductive PopError where
  | emptyBuffer
  | corruptEntry
deriving DecidableEq

/-- A `container/ring` ring as `plog` uses it: a fixed block of slots and the
index of the current node.  `slots.length` is the `n` of `ring.New(n)`. -/
structure GoRing (α : Type) where
  slots : List (Option α)
  pos : Nat
deriving DecidableEq

/-- `r.Prev()`: the node one step backward from the current one. -/
def GoRing.prev {α : Type} (g : GoRing α) : GoRing α :=
  { g with pos := (g.pos + g.slots.length - 1) % g.slots.length }

/-- `r.Next()`: the node one step forward from the current one. -/
def GoRing.next {α : Type} (g : GoRing α) : GoRing α :=
  { g with pos := (g.pos + 1) % g.slots.length }

/-- `r.Value` of the current node (`none` is Go's nil). -/
def GoRing.value {α : Type} (g : GoRing α) : Option α :=
  g.slots.getD g.pos none

/-- `r.Value = v` on the current node. -/
def GoRing.setValue {α : Type} (g : GoRing α) (v : Option α) : GoRing α :=
  { g with slots := g.slots.set g.pos v }

/-- `ring.New(n)` for `n ≥ 1`: `n` nodes, all Values nil.  (The `n ≤ 0` nil
case is handled at the call site in `RingBuffer.pwrite`.) -/
def GoRing.new (α : Type) (n : Nat) : GoRing α :=
  { slots := List.replicate n none, pos := 0 }

/-- Lookup in the `map[int]*ring.Ring` model. -/
def lookupR {α : Type} : List (Nat × GoRing α) → Nat → Option (GoRing α)
  | [], _ => none
  | (k, g) :: t, i => if k = i then some g else lookupR t i

/-- Map assignment `buf[i] = g` in the `map[int]*ring.Ring` model. -/
def insertR {α : Type} : List (Nat × GoRing α) → Nat → GoRing α → List (Nat × GoRing α)
  | [], i, g => [(i, g)]
  | (k, g') :: t, i, g => if k = i then (i, g) :: t else (k, g') :: insertR t i g

/-- The `RingBuffer` struct (plog.go:102-108): default priority `p`, the
shared per-ring capacity `bufCap`, the priority-indexed rings `buf`, and the
tracked highest priority `highP`.  The mutex is not part of the functional
state (see the concurrency claim). -/
structure RingBuffer (α : Type) where
  p : Nat
  bufCap : Nat
  buf : List (Nat × GoRing α)
  highP : Nat
deriving DecidableEq

/-- `NewRingBuffer` (plog.go:112-120): stores the given priority and size
without any validation; the map is empty and `highP` is 0. -/
def newRingBuffer (α : Type) (p size : Nat) : RingBuffer α :=
  { p := p, bufCap := size, buf := [], highP := 0 }

/-- `GetPriority` (plog.go:123-125). -/
def RingBuffer.getPriority {α : Type} (r : RingBuffer α) : Nat := r.p

/-- `SetPriority` (plog.go:128-130). -/
def RingBuffer.setPriority {α : Type} (r : RingBuffer α) (q : Nat) : RingBuffer α :=
  { r with p := q }

/-- The condition of the `highP` rescan loop body (plog.go:150): the ring at
rank `i` exists and the Value of the node just behind its current one is not
nil. -/
def ringHasPrevAt {α : Type} (buf : List (Nat × GoRing α)) (i : Nat) : Bool :=
  match lookupR buf i with
  | some g => g.prev.value.isSome
  | none => false

/-- The rescan loop of `Pop` (plog.go:149-154): `for i := highP; i >= 0; i--`,
returning the first rank whose ring has an occupied slot behind its cursor,
or nothing when no rank down to 0 qualifies (in which case `highP` is left
as it was). -/
def findScan {α : Type} (buf : List (Nat × GoRing α)) : Nat → Option Nat
  | 0 => if ringHasPrevAt buf 0 then some 0 else none
  | i + 1 => if ringHasPrevAt buf (i + 1) then some (i + 1) else findScan buf i

/-- `Pop` (plog.go:134-157), returning the Go `(string, error)` pair as an
`Except` together with the store after the call. -/
def RingBuffer.pop {α : Type} (r : RingBuffer α) : Except PopError α × RingBuffer α :=
  match lookupR r.buf r.highP with
  | none => (Except.error PopError.emptyBuffer, r)
  | some g =>
    let g1 := g.prev
    let r1 : RingBuffer α := { r with buf := insertR r.buf r.highP g1 }
    match g1.value with
    | none => (Except.error PopError.corruptEntry, r1)
    | some b =>
      let g2 := g1.setValue none
      let r2 : RingBuffer α := { r1 with buf := insertR r1.buf r.highP g2 }
      let r3 : RingBuffer α := { r2 with highP := (findScan r2.buf r2.highP).getD r2.highP }
      (Except.ok b, r3)

/-- `PWrite` (plog.go:165-182).  `none` models the nil-ring crash that
`ring.New(size)` with a non-positive size causes on the first write at a
rank (plog.go:174-178). -/
def RingBuffer.pwrite {α : Type} (r : RingBuffer α) (q : Nat) (b : α) : Option (RingBuffer α) :=
  let r1 : RingBuffer α := if q > r.highP then { r with highP := q } else r
  match lookupR r1.buf q with
  | none =>
    if r1.bufCap = 0 then none
    else some { r1 with buf := insertR r1.buf q (((GoRing.new α r1.bufCap).setValue (some b)).next) }
  | some g => some { r1 with buf := insertR r1.buf q ((g.setValue (some b)).next) }

/-- `Write` (plog.go:160-162): `PWrite` at the store's default priority. -/
def RingBuffer.write {α : Type} (r : RingBuffer α) (b : α) : Option (RingBuffer α) :=
  r.pwrite r.getPriority b

/-- Runs a list of `(priority, entry)` writes through `PWrite` left to right. -/
def applyWrites {α : Type} : RingBuffer α → List (Nat × α) → Option (RingBuffer α)
  | r, [] => some r
  | r, (q, b) :: t =>
    match r.pwrite q b with
    | none => none
    | some r' => applyWrites r' t

/-- Runs a list of entries through `Write` (default priority) left to right. -/
def applyDefWrites {α : Type} : RingBuffer α → List α → Option (RingBuffer α)
  | r, [] => some r
  | r, b :: t =>
    match r.write b with
    | none => none
    | some r' => applyDefWrites r' t

/-- `n` consecutive `Pop` calls: the list of their results and the final store. -/
def popN {α : Type} : RingBuffer α → Nat → List (Except PopError α) × RingBuffer α
  | r, 0 => ([], r)
  | r, n + 1 =>
    let pr := r.pop
    let rest := popN pr.2 n
    (pr.1 :: rest.1, rest.2)

/-- The highest rank occurring in a write list (0 for the empty list). -/
def maxRank {α : Type} : List (Nat × α) → Nat
  | [] => 0
  | (q, _) :: t => max q (maxRank t)

/-- The entry of the last write at rank `m` in the list, if any. -/
def lastWithRank {α : Type} (m : Nat) : List (Nat × α) → Option α
  | [] => none
  | (q, b) :: t =>
    match lastWithRank m t with
    | some x => some x
    | none => if q = m then some b else none

/-- Well-formed store: every ring present in the map has the store's
capacity as its length and its cursor inside the block.  Every store the
public API builds from `newRingBuffer` satisfies this. -/
def WF {α : Type} (r : RingBuffer α) : Prop :=
  ∀ i g, lookupR r.buf i = some g → g.slots.length = r.bufCap ∧ g.pos < r.bufCap

/-- The greatest rank at or below `h` whose ring has an occupied slot just
behind its read cursor.  Written from the claim's words ("the maximum
priority rank that has at least one unread entry", bounded by the scan
range) as a bottom-up maximum, to compare with the top-down first-hit scan
`findScan` of the source. -/
def maxOccupiedBelow {α : Type} (buf : List (Nat × GoRing α)) : Nat → Option Nat
  | 0 => if ringHasPrevAt buf 0 then some 0 else none
  | h + 1 =>
    match maxOccupiedBelow buf h with
    | some m => if ringHasPrevAt buf (h + 1) then some (max m (h + 1)) else some m
    | none => if ringHasPrevAt buf (h + 1) then some (h + 1) else none

instance {ε β : Type} [DecidableEq ε] [DecidableEq β] : DecidableEq (Except ε β)
  | Except.ok a, Except.ok b =>
    if h : a = b then Decidable.isTrue (by rw [h])
    else Decidable.isFalse (fun hh => h (Except.ok.inj hh))
  | Except.error a, Except.error b =>
    if h : a = b then Decidable.isTrue (by rw [h])
    else Decidable.isFalse (fun hh => h (Except.error.inj hh))
  | Except.ok _, Except.error _ => Decidable.isFalse (fun hh => Except.noConfusion hh)
  | Except.error _, Except.ok _ => Decidable.isFalse (fun hh => Except.noConfusion hh)

/-! ### Association-list map lemmas -/

theorem lookupR_insertR_self {α : Type} (l : List (Nat × GoRing α)) (k : Nat) (v : GoRing α) :
    lookupR (insertR l k v) k = some v := by
  induction l with
  | nil => simp [insertR, lookupR]
  | cons hd t ih =>
    obtain ⟨k', g'⟩ := hd
    by_cases h : k' = k <;> simp [insertR, lookupR, h, ih]

theorem lookupR_insertR_ne {α : Type} (l : List (Nat × GoRing α)) (k j : Nat) (v : GoRing α)
    (h : k ≠ j) : lookupR (insertR l k v) j = lookupR l j := by
  induction l with
  | nil => simp [insertR, lookupR, h]
  | cons hd t ih =>
    obtain ⟨k', g'⟩ := hd
    by_cases h' : k' = k
    · subst h'
      simp [insertR, lookupR, h]
    · simp [insertR, lookupR, h', ih]

theorem insertR_insertR {α : Type} (l : List (Nat × GoRing α)) (k : Nat) (v v' : GoRing α) :
    insertR (insertR l k v) k v' = insertR l k v' := by
  induction l with
  | nil => simp [insertR]
  | cons hd t ih =>
    obtain ⟨k', g'⟩ := hd
    by_cases h : k' = k <;> simp [insertR, h, ih]

/-! ### List slot lemmas -/

theorem getD_set_self {β : Type} :
    ∀ (l : List β) (i : Nat), i < l.length → ∀ (v d : β), (l.set i v).getD i d = v
  | [], i, h, _, _ => absurd h (by simp)
  | _ :: _, 0, _, _, _ => rfl
  | _ :: t, i + 1, h, v, d => by
    have := getD_set_self t i (by simpa using h) v d
    simpa [List.getD] using this

theorem getD_set_ne {β : Type} :
    ∀ (l : List β) (i j : Nat), i ≠ j → ∀ (v d : β), (l.set i v).getD j d = l.getD j d
  | [], _, _, _, _, _ => rfl
  | _ :: _, 0, 0, h, _, _ => absurd rfl h
  | _ :: _, 0, _ + 1, _, _, _ => rfl
  | _ :: _, _ + 1, 0, _, _, _ => rfl
  | _ :: t, i + 1, j + 1, h, v, d => by
    have := getD_set_ne t i j (fun hh => h (by rw [hh])) v d
    simpa [List.getD] using this

theorem getD_replicate {β : Type} :
    ∀ (n i : Nat) (d : β), (List.replicate n d).getD i d = d
  | 0, _, _ => rfl
  | _ + 1, 0, _ => rfl
  | n + 1, i + 1, d => getD_replicate n i d

/-! ### Modular-arithmetic lemmas for ring positions -/

theorem mod_pred (M c : Nat) (hc : 0 < c) (hM : 1 ≤ M) :
    (M % c + c - 1) % c = (M - 1) % c := by
  have e1 : M % c + c - 1 = M % c + (c - 1) := by omega
  have e2 : M + (c - 1) = (M - 1) + c := by omega
  rw [e1, Nat.mod_add_mod, e2, Nat.add_mod_right]

theorem mod_succ_prev (p n : Nat) (h : p < n) : ((p + 1) % n + n - 1) % n = p := by
  have h0 : 0 < n := Nat.lt_of_le_of_lt (Nat.zero_le p) h
  have := mod_pred (p + 1) n h0 (by omega)
  simpa [Nat.mod_eq_of_lt h] using this

theorem sub_mod_inj (M c t t' : Nat) (ht : t < c) (ht' : t' < c)
    (hMt : t ≤ M) (hMt' : t' ≤ M) (h : (M - t) % c = (M - t') % c) : t = t' := by
  have h1 : (M - t + (t + t')) % c = (M - t' + (t + t')) % c :=
    Nat.ModEq.add_right (t + t') h
  have e1 : M - t + (t + t') = M + t' := by omega
  have e2 : M - t' + (t + t') = M + t := by omega
  rw [e1, e2] at h1
  have h2 : t' % c = t % c := Nat.ModEq.add_left_cancel' M h1
  rw [Nat.mod_eq_of_lt ht', Nat.mod_eq_of_lt ht] at h2
  omega

/-! ### One ring write: slot and cursor facts -/

theorem write_ring_slots {α : Type} (g : GoRing α) (b : α) :
    ((g.setValue (some b)).next).slots = g.slots.set g.pos (some b) := rfl

theorem write_ring_length {α : Type} (g : GoRing α) (b : α) :
    ((g.setValue (some b)).next).slots.length = g.slots.length := by
  simp [GoRing.setValue, GoRing.next]

theorem write_ring_pos {α : Type} (g : GoRing α) (b : α) :
    ((g.setValue (some b)).next).pos = (g.pos + 1) % g.slots.length := by
  simp [GoRing.setValue, GoRing.next]

theorem write_ring_prev_value {α : Type} (g : GoRing α) (b : α) (h : g.pos < g.slots.length) :
    (((g.setValue (some b)).next).prev).value = some b := by
  simp only [GoRing.prev, GoRing.value, write_ring_slots, write_ring_pos, List.length_set]
  rw [mod_succ_prev g.pos g.slots.length h]
  exact getD_set_self g.slots g.pos h (some b) none

/-- Shape of a successful `PWrite` into a store of positive capacity: the
default priority and capacity are untouched, `highP` becomes the max of its
old value and the written rank, and the written rank's ring gains the entry
in the slot just behind its new cursor. -/
theorem pwrite_shape {α : Type} (r : RingBuffer α) (q : Nat) (b : α) (hc : 0 < r.bufCap)
    (hwf : ∀ g, lookupR r.buf q = some g → g.slots.length = r.bufCap ∧ g.pos < r.bufCap) :
    ∃ g' : GoRing α,
      r.pwrite q b = some ⟨r.p, r.bufCap, insertR r.buf q g', max r.highP q⟩ ∧
      g'.slots.length = r.bufCap ∧ g'.pos < r.bufCap ∧ g'.prev.value = some b := by
  have hcap : ¬r.bufCap = 0 := by omega
  cases hl : lookupR r.buf q with
  | none =>
    refine ⟨((GoRing.new α r.bufCap).setValue (some b)).next, ?_, ?_, ?_, ?_⟩
    · by_cases hq : q > r.highP
      · simp only [RingBuffer.pwrite, if_pos hq]
        rw [hl]
        simp only [if_neg hcap]
        have : max r.highP q = q := Nat.max_eq_right (Nat.le_of_lt hq)
        simp [this]
      · simp only [RingBuffer.pwrite, if_neg hq]
        rw [hl]
        simp only [if_neg hcap]
        have : max r.highP q = r.highP := Nat.max_eq_left (by omega)
        simp [this]
    · rw [write_ring_length]
      simp [GoRing.new]
    · rw [write_ring_pos]
      simp only [GoRing.new]
      simpa using Nat.mod_lt 1 hc
    · exact write_ring_prev_value _ b (by simp [GoRing.new, hc])
  | some g =>
    obtain ⟨hlen, hpos⟩ := hwf g hl
    refine ⟨(g.setValue (some b)).next, ?_, ?_, ?_, ?_⟩
    · by_cases hq : q > r.highP
      · simp only [RingBuffer.pwrite, if_pos hq]
        rw [hl]
        have : max r.highP q = q := Nat.max_eq_right (Nat.le_of_lt hq)
        simp [this]
      · simp only [RingBuffer.pwrite, if_neg hq]
        rw [hl]
        have : max r.highP q = r.highP := Nat.max_eq_left (by omega)
        simp [this]
    · rw [write_ring_length, hlen]
    · rw [write_ring_pos, hlen]
      exact Nat.mod_lt _ hc
    · exact write_ring_prev_value g b (hlen ▸ hpos)

/-! ### The three outcomes of `Pop` -/

theorem pop_empty {α : Type} (r : RingBuffer α) (h : lookupR r.buf r.highP = none) :
    r.pop = (Except.error PopError.emptyBuffer, r) := by
  simp [RingBuffer.pop, h]

theorem pop_corrupt {α : Type} (r : RingBuffer α) (g : GoRing α)
    (hl : lookupR r.buf r.highP = some g) (hv : g.prev.value = none) :
    r.pop = (Except.error PopError.corruptEntry,
      { r with buf := insertR r.buf r.highP g.prev }) := by
  simp [RingBuffer.pop, hl, hv]

theorem pop_ok {α : Type} (r : RingBuffer α) (g : GoRing α) (b : α)
    (hl : lookupR r.buf r.highP = some g) (hv : g.prev.value = some b) :
    r.pop = (Except.ok b,
      ⟨r.p, r.bufCap, insertR r.buf r.highP (g.prev.setValue none),
        (findScan (insertR r.buf r.highP (g.prev.setValue none)) r.highP).getD r.highP⟩) := by
  simp [RingBuffer.pop, hl, hv, insertR_insertR]

/-! ### The `highP` rescan -/

theorem findScan_none {α : Type} (buf : List (Nat × GoRing α)) :
    ∀ h, (∀ j, j ≤ h → ringHasPrevAt buf j = false) → findScan buf h = none
  | 0, hall => by simp [findScan, hall 0 (Nat.le_refl 0)]
  | h + 1, hall => by
    have ih := findScan_none buf h (fun j hj => hall j (Nat.le_succ_of_le hj))
    simp [findScan, hall (h + 1) (Nat.le_refl _), ih]

theorem findScan_self {α : Type} (buf : List (Nat × GoRing α)) (h : Nat)
    (hh : ringHasPrevAt buf h = true) : findScan buf h = some h := by
  cases h <;> simp [findScan, hh]

theorem maxOccupiedBelow_le {α : Type} (buf : List (Nat × GoRing α)) :
    ∀ h m, maxOccupiedBelow buf h = some m → m ≤ h
  | 0, m, hm => by
    by_cases h0 : ringHasPrevAt buf 0
    · simp [maxOccupiedBelow, h0] at hm
      omega
    · simp [maxOccupiedBelow, h0] at hm
  | h + 1, m, hm => by
    cases hsub : maxOccupiedBelow buf h with
    | some m' =>
      have hle := maxOccupiedBelow_le buf h m' hsub
      by_cases hc : ringHasPrevAt buf (h + 1) <;>
        simp [maxOccupiedBelow, hsub, hc] at hm <;> omega
    | none =>
      by_cases hc : ringHasPrevAt buf (h + 1) <;>
        simp [maxOccupiedBelow, hsub, hc] at hm
      omega

/-- The downward first-hit scan of the source computes exactly the greatest
qualifying rank: the top-down loop and the bottom-up maximum agree. -/
theorem findScan_eq_maxOccupiedBelow {α : Type} (buf : List (Nat × GoRing α)) :
    ∀ h, findScan buf h = maxOccupiedBelow buf h
  | 0 => rfl
  | h + 1 => by
    have ih := findScan_eq_maxOccupiedBelow buf h
    by_cases hc : ringHasPrevAt buf (h + 1)
    · cases hsub : maxOccupiedBelow buf h with
      | some m =>
        have hle := maxOccupiedBelow_le buf h m hsub
        have hmax : max m (h + 1) = h + 1 := Nat.max_eq_right (by omega)
        simp [findScan, maxOccupiedBelow, hc, hsub, hmax]
      | none => simp [findScan, maxOccupiedBelow, hc, hsub]
    · cases hsub : maxOccupiedBelow buf h with
      | some m => simp [findScan, maxOccupiedBelow, hc, hsub, ih]
      | none => simp [findScan, maxOccupiedBelow, hc, hsub, ih]

theorem lookupR_insertR {α : Type} (l : List (Nat × GoRing α)) (k i : Nat) (v : GoRing α) :
    lookupR (insertR l k v) i = if k = i then some v else lookupR l i := by
  by_cases h : k = i
  · subst h
    simp [lookupR_insertR_self]
  · simp [h, lookupR_insertR_ne l k i v h]

/-! ### Write-phase bookkeeping for the ordering claims -/

theorem maxRank_append {α : Type} (ws : List (Nat × α)) (q : Nat) (b : α) :
    maxRank (ws ++ [(q, b)]) = max (maxRank ws) q := by
  induction ws with
  | nil => simp [maxRank]
  | cons hd t ih =>
    obtain ⟨q', b'⟩ := hd
    simp [maxRank, ih, Nat.max_assoc]

theorem lastWithRank_append {α : Type} (m : Nat) (ws : List (Nat × α)) (q : Nat) (b : α) :
    lastWithRank m (ws ++ [(q, b)]) = if q = m then some b else lastWithRank m ws := by
  induction ws with
  | nil => simp [lastWithRank]
  | cons hd t ih =>
    obtain ⟨q', b'⟩ := hd
    rw [List.cons_append, lastWithRank, ih, lastWithRank]
    by_cases hqm : q = m
    · simp [hqm]
    · simp only [if_neg hqm]

theorem applyWrites_append {α : Type} (r : RingBuffer α) (l₁ l₂ : List (Nat × α)) :
    applyWrites r (l₁ ++ l₂) = (applyWrites r l₁).bind (fun r' => applyWrites r' l₂) := by
  induction l₁ generalizing r with
  | nil => simp [applyWrites]
  | cons hd t ih =>
    obtain ⟨q, b⟩ := hd
    simp only [List.cons_append, applyWrites]
    cases r.pwrite q b with
    | none => simp
    | some r' => simpa using ih r'

/-- Invariant after a nonempty sequence of writes into a fresh store of
positive capacity `c`: the store is well-formed, `highP` equals the highest
written rank, no ring exists above it, and the ring at that rank holds the
entry of the last write at that rank in the slot just behind its cursor. -/
theorem applyWrites_top_inv {α : Type} (c p0 : Nat) (hc : 0 < c) :
    ∀ ws : List (Nat × α), ws ≠ [] →
      ∃ (r : RingBuffer α) (g : GoRing α) (b : α),
        applyWrites (newRingBuffer α p0 c) ws = some r ∧
        WF r ∧
        r.bufCap = c ∧
        r.highP = maxRank ws ∧
        (∀ i, maxRank ws < i → lookupR r.buf i = none) ∧
        lookupR r.buf (maxRank ws) = some g ∧
        g.prev.value = some b ∧
        lastWithRank (maxRank ws) ws = some b := by
  intro ws
  induction ws using List.reverseRecOn with
  | nil => intro h; exact absurd rfl h
  | append_singleton t x ih =>
    obtain ⟨q, b0⟩ := x
    intro _
    by_cases ht : t = []
    · subst ht
      obtain ⟨g', hw, hlen, hpos, hval⟩ :=
        pwrite_shape (newRingBuffer α p0 c) q b0 hc
          (fun g0 hg0 => by simp [newRingBuffer, lookupR] at hg0)
      have happ0 : applyWrites (newRingBuffer α p0 c) ([] ++ [(q, b0)]) =
          some ⟨(newRingBuffer α p0 c).p, (newRingBuffer α p0 c).bufCap,
            insertR (newRingBuffer α p0 c).buf q g',
            max (newRingBuffer α p0 c).highP q⟩ := by
        simp only [List.nil_append, applyWrites, hw]
      have hmax0 : maxRank ([] ++ [(q, b0)] : List (Nat × α)) = q := by
        simp [maxRank]
      refine ⟨_, g', b0, happ0, ?_, rfl, ?_, ?_, ?_, hval, ?_⟩
      · intro i g0 hg0
        have hg0' : lookupR (insertR (newRingBuffer α p0 c).buf q g') i = some g0 := hg0
        rw [lookupR_insertR] at hg0'
        by_cases hqi : q = i
        · rw [if_pos hqi] at hg0'
          cases hg0'
          exact ⟨hlen, hpos⟩
        · rw [if_neg hqi] at hg0'
          simp [newRingBuffer, lookupR] at hg0'
      · show max (newRingBuffer α p0 c).highP q = maxRank ([] ++ [(q, b0)])
        rw [hmax0]
        simp [newRingBuffer]
      · intro i hi
        rw [hmax0] at hi
        show lookupR (insertR (newRingBuffer α p0 c).buf q g') i = none
        rw [lookupR_insertR, if_neg (by omega : ¬q = i)]
        simp [newRingBuffer, lookupR]
      · show lookupR (insertR (newRingBuffer α p0 c).buf q g') (maxRank ([] ++ [(q, b0)])) = some g'
        rw [hmax0, lookupR_insertR, if_pos rfl]
      · rw [hmax0]
        simp [lastWithRank]
    · obtain ⟨r, g, b', hw, hWFr, hcap, hhigh, hnone, hlook, hval, hlast⟩ := ih ht
      obtain ⟨g'', hw'', hlen'', hpos'', hval''⟩ :=
        pwrite_shape r q b0 (hcap ▸ hc) (fun g0 hg0 => hWFr q g0 hg0)
      have happ : applyWrites (newRingBuffer α p0 c) (t ++ [(q, b0)]) =
          some ⟨r.p, r.bufCap, insertR r.buf q g'', max r.highP q⟩ := by
        rw [applyWrites_append, hw]
        show applyWrites r [(q, b0)] = _
        simp only [applyWrites, hw'']
      have hmax : maxRank (t ++ [(q, b0)]) = max (maxRank t) q := maxRank_append t q b0
      have hWF' : WF (⟨r.p, r.bufCap, insertR r.buf q g'', max r.highP q⟩ : RingBuffer α) := by
        intro i g0 hg0
        have hg0' : lookupR (insertR r.buf q g'') i = some g0 := hg0
        rw [lookupR_insertR] at hg0'
        by_cases hqi : q = i
        · rw [if_pos hqi] at hg0'
          cases hg0'
          exact ⟨hlen'', hpos''⟩
        · rw [if_neg hqi] at hg0'
          exact hWFr i g0 hg0'
      by_cases hq : maxRank t ≤ q
      · have hmr : max (maxRank t) q = q := Nat.max_eq_right hq
        refine ⟨_, g'', b0, happ, hWF', hcap, ?_, ?_, ?_, hval'', ?_⟩
        · show max r.highP q = maxRank (t ++ [(q, b0)])
          rw [hmax, hmr, hhigh, hmr]
        · intro i hi
          rw [hmax, hmr] at hi
          show lookupR (insertR r.buf q g'') i = none
          rw [lookupR_insertR, if_neg (by omega : ¬q = i)]
          exact hnone i (by omega)
        · show lookupR (insertR r.buf q g'') (maxRank (t ++ [(q, b0)])) = some g''
          rw [hmax, hmr, lookupR_insertR, if_pos rfl]
        · rw [hmax, hmr, lastWithRank_append, if_pos rfl]
      · have hlt : q < maxRank t := by omega
        have hml : max (maxRank t) q = maxRank t := Nat.max_eq_left (by omega)
        refine ⟨_, g, b', happ, hWF', hcap, ?_, ?_, ?_, hval, ?_⟩
        · show max r.highP q = maxRank (t ++ [(q, b0)])
          rw [hmax, hml, hhigh, hml]
        · intro i hi
          rw [hmax, hml] at hi
          show lookupR (insertR r.buf q g'') i = none
          rw [lookupR_insertR, if_neg (by omega : ¬q = i)]
          exact hnone i hi
        · show lookupR (insertR r.buf q g'') (maxRank (t ++ [(q, b0)])) = some g
          rw [hmax, hml, lookupR_insertR, if_neg (by omega : ¬q = maxRank t)]
          exact hlook
        · rw [hmax, hml, lastWithRank_append, if_neg (by omega : ¬q = maxRank t)]
          exact hlast

/-! ### Further small helpers -/

theorem set_same_replicate {β : Type} :
    ∀ (c i : Nat) (d : β), (List.replicate c d).set i d = List.replicate c d
  | 0, _, _ => rfl
  | _ + 1, 0, _ => rfl
  | c + 1, i + 1, d => by
    simp only [List.replicate, List.set]
    rw [set_same_replicate c i d]

/-- Inverting a successful `PWrite`: the new `highP` is the max of the old
one and the written rank. -/
theorem pwrite_highP {α : Type} (r : RingBuffer α) (q : Nat) (b : α) (rw' : RingBuffer α)
    (hw : r.pwrite q b = some rw') : rw'.highP = max r.highP q := by
  unfold RingBuffer.pwrite at hw
  by_cases hq : q > r.highP
  · rw [if_pos hq] at hw
    dsimp only at hw
    cases hl : lookupR r.buf q with
    | none =>
      rw [hl] at hw
      by_cases hc0 : r.bufCap = 0
      · rw [if_pos hc0] at hw
        cases hw
      · rw [if_neg hc0] at hw
        cases hw
        exact (Nat.max_eq_right (Nat.le_of_lt hq)).symm
    | some g =>
      rw [hl] at hw
      cases hw
      exact (Nat.max_eq_right (Nat.le_of_lt hq)).symm
  · rw [if_neg hq] at hw
    dsimp only at hw
    cases hl : lookupR r.buf q with
    | none =>
      rw [hl] at hw
      by_cases hc0 : r.bufCap = 0
      · rw [if_pos hc0] at hw
        cases hw
      · rw [if_neg hc0] at hw
        cases hw
        show r.highP = max r.highP q
        exact (Nat.max_eq_left (by omega)).symm
    | some g =>
      rw [hl] at hw
      cases hw
      show r.highP = max r.highP q
      exact (Nat.max_eq_left (by omega)).symm

/-- `PWrite` into a fresh store, spelled out. -/
theorem pwrite_fresh {α : Type} (p c q : Nat) (b : α) (hc : 0 < c) :
    (newRingBuffer α p c).pwrite q b =
      some ⟨p, c, [(q, ((GoRing.new α c).setValue (some b)).next)], q⟩ := by
  unfold RingBuffer.pwrite newRingBuffer
  by_cases hq : q > 0
  · simp [hq, lookupR, insertR]
    omega
  · have hq0 : q = 0 := by omega
    subst hq0
    simp [lookupR, insertR]
    omega

theorem prev_pos {α : Type} (g : GoRing α) :
    g.prev.pos = (g.pos + g.slots.length - 1) % g.slots.length := rfl

theorem prev_slots {α : Type} (g : GoRing α) : g.prev.slots = g.slots := rfl

/-! ### Claim C4 -/

/-- Claim C4 (amended): the corrupt-entry error is reachable through the
public API alone: for every positive capacity, writing one entry into a
fresh store and popping twice makes the second `Pop` return the
type-assertion (corrupt-entry) error — the code reports a drained store
through that branch. -/
theorem c4_corrupt_reachable {α : Type} (c p q : Nat) (b : α) (hc : 0 < c) :
    ∃ r1 : RingBuffer α, (newRingBuffer α p c).pwrite q b = some r1 ∧
      (r1.pop).1 = Except.ok b ∧
      (((r1.pop).2).pop).1 = Except.error PopError.corruptEntry := by
  set gW : GoRing α := ((GoRing.new α c).setValue (some b)).next with hgWdef
  set g2 : GoRing α := gW.prev.setValue none with hg2def
  have hlenW : gW.slots.length = c := by
    rw [hgWdef, write_ring_length]
    simp [GoRing.new]
  have hposW : gW.pos = 1 % c := by
    rw [hgWdef, write_ring_pos]
    simp [GoRing.new]
  have hvalW : gW.prev.value = some b := by
    rw [hgWdef]
    exact write_ring_prev_value _ b (by simp [GoRing.new, hc])
  have hppos : gW.prev.pos = 0 := by
    rw [prev_pos, hposW, hlenW]
    exact mod_succ_prev 0 c hc
  have hpslots : gW.prev.slots = (List.replicate c none).set 0 (some b) := by
    rw [prev_slots, hgWdef, write_ring_slots]
    simp [GoRing.new]
  have hg2 : g2 = ⟨List.replicate c none, 0⟩ := by
    rw [hg2def,
      show gW.prev.setValue none =
        (⟨gW.prev.slots.set gW.prev.pos none, gW.prev.pos⟩ : GoRing α) from rfl,
      hppos, hpslots, List.set_set, set_same_replicate]
  have hval2 : g2.prev.value = none := by
    rw [hg2]
    exact getD_replicate c _ none
  have hl1 : lookupR [(q, gW)] q = some gW := by simp [lookupR]
  have hl2 : lookupR [(q, g2)] q = some g2 := by simp [lookupR]
  have hbuf2 : insertR [(q, gW)] q g2 = [(q, g2)] := by simp [insertR]
  have hscan : findScan [(q, g2)] q = none := by
    apply findScan_none
    intro j hj
    by_cases hjq : q = j
    · subst hjq
      simp [ringHasPrevAt, lookupR, hval2]
    · simp [ringHasPrevAt, lookupR, hjq]
  have h1 : (⟨p, c, [(q, gW)], q⟩ : RingBuffer α).pop = (Except.ok b, ⟨p, c, [(q, g2)], q⟩) := by
    rw [pop_ok ⟨p, c, [(q, gW)], q⟩ gW b hl1 hvalW]
    rw [show ((⟨p, c, [(q, gW)], q⟩ : RingBuffer α)).buf = [(q, gW)] from rfl]
    rw [← hg2def, hbuf2, hscan]
    rfl
  have h2 : (⟨p, c, [(q, g2)], q⟩ : RingBuffer α).pop =
      (Except.error PopError.corruptEntry, ⟨p, c, insertR [(q, g2)] q g2.prev, q⟩) :=
    pop_corrupt _ g2 hl2 hval2
  refine ⟨⟨p, c, [(q, gW)], q⟩, ?_, ?_, ?_⟩
  · rw [hgWdef]
    exact pwrite_fresh p c q b hc
  · rw [h1]
  · rw [h1]
    show ((⟨p, c, [(q, g2)], q⟩ : RingBuffer α).pop).1 = Except.error PopError.corruptEntry
    rw [h2]

theorem c4_corrupt_reachable_witness :
    ∃ r1 : RingBuffer String, (newRingBuffer String 0 3).pwrite 2 "x" = some r1 ∧
      (r1.pop).1 = Except.ok "x" ∧
      (((r1.pop).2).pop).1 = Except.error PopError.corruptEntry :=
  c4_corrupt_reachable 3 0 2 "x" (by decide)

def c4cexStore : RingBuffer String :=
  ((newRingBuffer String 0 1).pwrite 0 "a").getD (newRingBuffer String 0 1)

/-- A concrete public-API run — `NewRingBuffer` with capacity 1, one
`PWrite`, `Pop` twice — in which the second `Pop` returns the corrupt-entry
error that the claim says is unreachable. -/
theorem c4_corrupt_public_counterexample :
    ((c4cexStore.pop).2.pop).1 = Except.error PopError.corruptEntry := rfl

/-! ### Claim C1 -/

/-- Claim C1: after any sequence of `PWrite`/`Write` calls across priorities
into a fresh positive-capacity store, `Pop` succeeds and returns the most
recently written entry at the highest rank that was written (priority
dominates recency, newest first within the top priority). -/
theorem c1_pop_newest_at_highest {α : Type} (c p0 : Nat) (ws : List (Nat × α))
    (r : RingBuffer α) (b : α) (hc : 0 < c)
    (hw : applyWrites (newRingBuffer α p0 c) ws = some r)
    (hb : lastWithRank (maxRank ws) ws = some b) :
    (r.pop).1 = Except.ok b ∧
    r.highP = maxRank ws ∧
    (∀ i, maxRank ws < i → lookupR r.buf i = none) := by
  have hne : ws ≠ [] := by
    rintro rfl
    simp [lastWithRank] at hb
  obtain ⟨r', g, b', hw', hWFr, hcap, hhigh, hnone, hlook, hval, hlast⟩ :=
    applyWrites_top_inv c p0 hc ws hne
  have hrr : r' = r := Option.some.inj (hw'.symm.trans hw)
  have hbb : b' = b := Option.some.inj (hlast.symm.trans hb)
  rw [← hrr, ← hbb]
  refine ⟨?_, hhigh, hnone⟩
  have hl : lookupR r'.buf r'.highP = some g := by rw [hhigh]; exact hlook
  rw [pop_ok r' g b' hl hval]

def c1wBase : RingBuffer String := newRingBuffer String 0 2

def c1wStore : RingBuffer String :=
  (applyWrites c1wBase [(1, "a"), (2, "b"), (1, "c")]).getD c1wBase

theorem c1_pop_newest_at_highest_witness : (c1wStore.pop).1 = Except.ok "b" :=
  (c1_pop_newest_at_highest 2 0 [(1, "a"), (2, "b"), (1, "c")] c1wStore "b"
    (by decide) rfl rfl).1

/-! ### Claim C3 -/

/-- Claim C3 (amended): a completed `PWrite` leaves `highP` at the max of its
old value and the written rank; a `Pop` that returns an entry leaves `highP`
at the greatest rank at or below the old `highP` whose ring has an occupied
slot just behind its read cursor — and when no such rank exists, `highP` is
left unchanged (not set to 0). -/
theorem c3_highP_tracking {α : Type} (r rw' r' : RingBuffer α) (q : Nat) (b v : α) :
    (r.pwrite q b = some rw' → rw'.highP = max r.highP q) ∧
    (r.pop = (Except.ok v, r') →
      r'.highP = (maxOccupiedBelow r'.buf r.highP).getD r.highP) := by
  refine ⟨fun hw => pwrite_highP r q b rw' hw, fun hp => ?_⟩
  cases hg : lookupR r.buf r.highP with
  | none =>
    rw [pop_empty r hg] at hp
    simp at hp
  | some g =>
    cases hv : g.prev.value with
    | none =>
      rw [pop_corrupt r g hg hv] at hp
      simp at hp
    | some b' =>
      rw [pop_ok r g b' hg hv] at hp
      injection hp with h1 h2
      subst h2
      show (findScan (insertR r.buf r.highP (g.prev.setValue none)) r.highP).getD r.highP =
        (maxOccupiedBelow (insertR r.buf r.highP (g.prev.setValue none)) r.highP).getD r.highP
      rw [findScan_eq_maxOccupiedBelow]

def c3wStore : RingBuffer String :=
  (applyWrites (newRingBuffer String 0 2) [(1, "a"), (1, "b")]).getD (newRingBuffer String 0 2)

def c3wAfterW : RingBuffer String := (c3wStore.pwrite 2 "x").getD c3wStore

def c3wAfterP : RingBuffer String := (c3wStore.pop).2

theorem c3_highP_tracking_witness :
    c3wAfterW.highP = max c3wStore.highP 2 ∧
    c3wAfterP.highP = (maxOccupiedBelow c3wAfterP.buf c3wStore.highP).getD c3wStore.highP :=
  ⟨(c3_highP_tracking c3wStore c3wAfterW c3wAfterP 2 "x" "b").1 rfl,
   (c3_highP_tracking c3wStore c3wAfterW c3wAfterP 2 "x" "b").2 rfl⟩

def c3cexStore : RingBuffer String :=
  ((((newRingBuffer String 1 1).pwrite 1 "a").getD (newRingBuffer String 1 1)).pop).2

/-- After `NewRingBuffer(Minor, 1)`, one `PWrite` at rank 1 and one `Pop`,
every slot of the store is empty, yet `highP` is still 1 — not 0 as the
claim requires of the no-rank-found rescan. -/
theorem c3_highP_not_reset_counterexample :
    c3cexStore.highP = 1 ∧ c3cexStore.buf = [(1, ⟨[none], 0⟩)] :=
  ⟨rfl, rfl⟩

/-! ### Claim C2 -/

/-- Claim C2 (amended): if no ring exists at the tracked `highP`, `Pop` fails
with the empty-buffer error and leaves the store unchanged (so repeated Pops
keep failing identically), and after a write into such a store (positive
capacity, `highP` 0) the next `Pop` succeeds; but when the store has been
drained — a ring exists at `highP` with nothing behind its cursor — `Pop`
fails with the corrupt-entry error instead of the empty-buffer error. -/
theorem c2_empty_vs_drained {α : Type} (r : RingBuffer α) (q : Nat) (b : α) :
    (lookupR r.buf r.highP = none → r.pop = (Except.error PopError.emptyBuffer, r)) ∧
    (∀ g : GoRing α, lookupR r.buf r.highP = some g → g.prev.value = none →
      (r.pop).1 = Except.error PopError.corruptEntry) ∧
    (WF r → r.highP = 0 → lookupR r.buf 0 = none → 0 < r.bufCap →
      ∀ r', r.pwrite q b = some r' → (r'.pop).1 = Except.ok b) := by
  refine ⟨fun h => pop_empty r h, fun g hg hv => by rw [pop_corrupt r g hg hv], ?_⟩
  intro hWFr hh0 hl0 hcpos r' hw
  obtain ⟨g', hw2, hlen, hpos, hval⟩ :=
    pwrite_shape r q b hcpos (fun g0 hg0 => hWFr q g0 hg0)
  rw [hw2] at hw
  obtain rfl := Option.some.inj hw
  have hl : lookupR (insertR r.buf q g') (max r.highP q) = some g' := by
    rw [hh0, Nat.zero_max, lookupR_insertR, if_pos rfl]
  rw [pop_ok _ g' b hl hval]

def c2wEmpty : RingBuffer String := newRingBuffer String 0 1

def c2wAfter : RingBuffer String := (c2wEmpty.pwrite 0 "a").getD c2wEmpty

theorem c2_empty_vs_drained_witness :
    c2wEmpty.pop = (Except.error PopError.emptyBuffer, c2wEmpty) ∧
    (c2wAfter.pop).1 = Except.ok "a" :=
  ⟨(c2_empty_vs_drained c2wEmpty 0 "a").1 rfl,
   (c2_empty_vs_drained c2wEmpty 0 "a").2.2
     (fun i g0 hg0 => by simp [c2wEmpty, newRingBuffer, lookupR] at hg0)
     rfl rfl (by decide) c2wAfter rfl⟩

def c2cexStore : RingBuffer String :=
  ((((newRingBuffer String 1 2).pwrite 3 "boom").getD (newRingBuffer String 1 2)).pop).2

/-- After writing one entry at rank Critical into a capacity-2 store and
draining it with one Pop, the next Pop fails with the corrupt-entry error,
not the empty-buffer error the claim promises for a store holding no unread
entry. -/
theorem c2_drained_error_counterexample :
    (c2cexStore.pop).1 = Except.error PopError.corruptEntry ∧
    (c2cexStore.pop).1 ≠ Except.error PopError.emptyBuffer :=
  ⟨rfl, by decide⟩

/-! ### Claim C9 -/

/-- Claim C9 (amended): `NewRingBuffer` performs no capacity validation —
with capacity 0 the store is built anyway and the first `PWrite` at any rank
crashes on the nil ring; with positive capacity the first `PWrite` always
succeeds. -/
theorem c9_capacity_validation {α : Type} (p c q : Nat) (b : α) (hc : 0 < c) :
    (newRingBuffer α p 0).pwrite q b = none ∧
    ((newRingBuffer α p c).pwrite q b).isSome := by
  constructor
  · unfold RingBuffer.pwrite newRingBuffer
    by_cases hq : q > 0 <;> simp [hq, lookupR]
  · rw [pwrite_fresh p c q b hc]
    rfl

theorem c9_capacity_validation_witness :
    (newRingBuffer String 1 0).pwrite 2 "x" = none ∧
    ((newRingBuffer String 1 3).pwrite 2 "x").isSome :=
  c9_capacity_validation 1 3 2 "x" (by decide)

/-- `NewRingBuffer` accepts capacity 0 (no rejection — the store is built
with `bufCap = 0`), and the first `PWrite` at a priority then crashes. -/
theorem c9_no_validation_counterexample :
    (newRingBuffer String 0 0).bufCap = 0 ∧
    (newRingBuffer String 0 0).pwrite 1 "x" = none :=
  ⟨rfl, rfl⟩

/-! ### Claim C10 -/

/-- Claim C10 (amended): the empty-buffer failure of `Pop` leaves the store
completely unchanged; the corrupt-entry failure steps the read cursor of the
`highP` ring one position backward before returning — which changes the
store whenever that ring has capacity at least 2, but is a no-op for a
capacity-1 ring. -/
theorem c10_error_atomicity {α : Type} (r : RingBuffer α) :
    (lookupR r.buf r.highP = none → r.pop = (Except.error PopError.emptyBuffer, r)) ∧
    (∀ g : GoRing α, lookupR r.buf r.highP = some g → g.prev.value = none →
      r.pop = (Except.error PopError.corruptEntry,
        { r with buf := insertR r.buf r.highP g.prev }) ∧
      (2 ≤ g.slots.length → g.pos < g.slots.length → (r.pop).2 ≠ r)) := by
  refine ⟨fun h => pop_empty r h, fun g hg hv => ⟨pop_corrupt r g hg hv, ?_⟩⟩
  intro h2 hpos heq
  have hb : (r.pop).2.buf = insertR r.buf r.highP g.prev := by
    rw [pop_corrupt r g hg hv]
  rw [heq] at hb
  rw [hb] at hg
  rw [lookupR_insertR, if_pos rfl] at hg
  have hgg : g.prev = g := Option.some.inj hg
  have hp : (g.pos + g.slots.length - 1) % g.slots.length = g.pos :=
    congrArg GoRing.pos hgg
  rcases Nat.eq_zero_or_pos g.pos with h0 | h1
  · rw [h0, show 0 + g.slots.length - 1 = g.slots.length - 1 from by omega] at hp
    rw [Nat.mod_eq_of_lt (by omega)] at hp
    omega
  · rw [show g.pos + g.slots.length - 1 = (g.pos - 1) + g.slots.length from by omega,
      Nat.add_mod_right, Nat.mod_eq_of_lt (by omega)] at hp
    omega

def c10wStore : RingBuffer String :=
  ((((newRingBuffer String 0 2).pwrite 0 "a").getD (newRingBuffer String 0 2)).pop).2

theorem c10_error_atomicity_witness :
    (c10wStore.pop).1 = Except.error PopError.corruptEntry ∧
    (c10wStore.pop).2 ≠ c10wStore := by
  obtain ⟨h1, h2⟩ := (c10_error_atomicity c10wStore).2 ⟨[none, none], 0⟩ rfl rfl
  exact ⟨by rw [h1], h2 (by decide) (by decide)⟩

/-! ### Claim C6: single-priority overflow and drain -/

/-- State after a nonempty run of writes at one rank `q` into a fresh store:
only the ring at `q` exists, its cursor sits at `length % c`, and for every
`t` below both the capacity and the number of writes, the slot at
`(length - 1 - t) % c` holds the `t`-th most recent entry. -/
theorem c6_writes {α : Type} (c p0 q : Nat) (hc : 0 < c) :
    ∀ bs : List α, bs ≠ [] →
      ∃ (r : RingBuffer α) (g : GoRing α),
        applyWrites (newRingBuffer α p0 c) (bs.map (fun b => (q, b))) = some r ∧
        r.highP = q ∧
        (∀ i, i ≠ q → lookupR r.buf i = none) ∧
        lookupR r.buf q = some g ∧
        g.slots.length = c ∧
        g.pos = bs.length % c ∧
        (∀ t, t < c → t < bs.length →
          g.slots.getD ((bs.length - 1 - t) % c) none = bs[bs.length - 1 - t]?) := by
  intro bs
  induction bs using List.reverseRecOn with
  | nil => intro h; exact absurd rfl h
  | append_singleton l b ih =>
    intro _
    by_cases hl0 : l = []
    · subst hl0
      refine ⟨⟨p0, c, [(q, ((GoRing.new α c).setValue (some b)).next)], q⟩,
        ((GoRing.new α c).setValue (some b)).next, ?_, rfl, ?_, ?_, ?_, ?_, ?_⟩
      · show applyWrites (newRingBuffer α p0 c) [(q, b)] = _
        simp only [applyWrites, pwrite_fresh p0 c q b hc]
      · intro i hi
        show lookupR [(q, ((GoRing.new α c).setValue (some b)).next)] i = none
        simp [lookupR, Ne.symm hi]
      · show lookupR [(q, ((GoRing.new α c).setValue (some b)).next)] q = _
        simp [lookupR]
      · rw [write_ring_length]
        simp [GoRing.new]
      · rw [write_ring_pos]
        simp [GoRing.new]
      · intro t htc ht1
        have hl1 : (([] : List α) ++ [b]).length = 1 := rfl
        rw [hl1] at ht1
        have ht0 : t = 0 := by omega
        subst ht0
        rw [hl1, show (1 - 1 - 0) % c = 0 from by simp, write_ring_slots]
        have h0 : (GoRing.new α c).pos = 0 := rfl
        have hsl : (GoRing.new α c).slots = List.replicate c none := rfl
        rw [h0, hsl, getD_set_self _ 0 (by simpa using hc)]
        rfl
    · obtain ⟨r, g, hw, hhigh, hnone, hlook, hlen, hpos, hchar⟩ := ih hl0
      have hnq : ¬q > r.highP := by omega
      have hw2 : r.pwrite q b =
          some ⟨r.p, r.bufCap, insertR r.buf q ((g.setValue (some b)).next), r.highP⟩ := by
        unfold RingBuffer.pwrite
        rw [if_neg hnq]
        dsimp only
        rw [hlook]
      have happ : applyWrites (newRingBuffer α p0 c) ((l ++ [b]).map (fun b => (q, b))) =
          some ⟨r.p, r.bufCap, insertR r.buf q ((g.setValue (some b)).next), r.highP⟩ := by
        rw [List.map_append, applyWrites_append, hw]
        show applyWrites r [(q, b)] = _
        simp only [applyWrites, hw2]
      have hlenN : (l ++ [b]).length = l.length + 1 := by simp
      refine ⟨_, (g.setValue (some b)).next, happ, hhigh, ?_, ?_, ?_, ?_, ?_⟩
      · intro i hi
        show lookupR (insertR r.buf q ((g.setValue (some b)).next)) i = none
        rw [lookupR_insertR, if_neg (Ne.symm hi)]
        exact hnone i hi
      · show lookupR (insertR r.buf q ((g.setValue (some b)).next)) q = _
        rw [lookupR_insertR, if_pos rfl]
      · rw [write_ring_length, hlen]
      · rw [write_ring_pos, hlen, hpos, Nat.mod_add_mod, hlenN]
      · intro t htc htN
        rw [hlenN] at htN
        have hidx : (l ++ [b]).length - 1 - t = l.length - t := by
          rw [hlenN]
          omega
        rw [hidx, write_ring_slots, hpos]
        by_cases ht0 : t = 0
        · subst ht0
          rw [Nat.sub_zero, getD_set_self _ _ (by rw [hlen]; exact Nat.mod_lt _ hc)]
          rw [List.getElem?_append_right (by omega)]
          simp
        · have hne : (l.length - t) % c ≠ l.length % c := by
            intro heq
            have := sub_mod_inj l.length c t 0 htc hc (by omega) (by omega)
              (by simpa using heq)
            omega
          rw [getD_set_ne _ _ _ (Ne.symm hne)]
          have hch := hchar (t - 1) (by omega) (by omega)
          rw [show l.length - 1 - (t - 1) = l.length - t from by omega] at hch
          rw [hch, List.getElem?_append_left (by omega)]

/-- Drain phase: from a state whose only ring (at rank `q`) holds the
`c - k` most recent entries still unread, `c - k` Pops return them newest
first and one further Pop fails with the corrupt-entry error. -/
theorem c6_drain {α : Type} (c q : Nat) (bs : List α) (hc : 0 < c) (hN : c < bs.length) :
    ∀ m k, k + m = c →
      ∀ (r : RingBuffer α) (g : GoRing α),
        r.highP = q →
        (∀ i, i ≠ q → lookupR r.buf i = none) →
        lookupR r.buf q = some g →
        g.slots.length = c →
        g.pos = (bs.length - k) % c →
        (∀ t, t < c → g.slots.getD ((bs.length - 1 - t) % c) none =
          if t < k then none else bs[bs.length - 1 - t]?) →
        (popN r (m + 1)).1 =
          ((bs.reverse.drop k).take m).map Except.ok ++ [Except.error PopError.corruptEntry] := by
  intro m
  induction m with
  | zero =>
    intro k hkm r g hhigh hnone hlook hlen hpos hchar
    have hk : k = c := by omega
    rw [hk] at hpos hchar
    have hprevpos : g.prev.pos = (bs.length - 1 - 0) % c := by
      rw [prev_pos, hlen, hpos, mod_pred (bs.length - c) c hc (by omega)]
      rw [show bs.length - 1 - 0 = bs.length - c - 1 + c from by omega, Nat.add_mod_right]
    have hval : g.prev.value = none := by
      rw [show g.prev.value = g.prev.slots.getD g.prev.pos none from rfl, prev_slots,
        hprevpos, hchar 0 hc, if_pos hc]
    have hl : lookupR r.buf r.highP = some g := by rw [hhigh]; exact hlook
    rw [show popN r (0 + 1) = ((r.pop).1 :: (popN (r.pop).2 0).1, (popN (r.pop).2 0).2) from rfl]
    rw [pop_corrupt r g hl hval]
    simp [popN]
  | succ m ihm =>
    intro k hkm r g hhigh hnone hlook hlen hpos hchar
    have hkc : k < c := by omega
    have hprevpos : g.prev.pos = (bs.length - 1 - k) % c := by
      rw [prev_pos, hlen, hpos, mod_pred (bs.length - k) c hc (by omega)]
      congr 1
      omega
    have hvala : g.prev.value = bs[bs.length - 1 - k]? := by
      rw [show g.prev.value = g.prev.slots.getD g.prev.pos none from rfl, prev_slots,
        hprevpos, hchar k hkc, if_neg (Nat.lt_irrefl k)]
    cases hvq : bs[bs.length - 1 - k]? with
    | none =>
      rw [List.getElem?_eq_none_iff] at hvq
      omega
    | some v =>
      have hvv : g.prev.value = some v := by rw [hvala, hvq]
      have hl : lookupR r.buf r.highP = some g := by rw [hhigh]; exact hlook
      have hpopped := pop_ok r g v hl hvv
      -- facts about the cleared ring
      have hg2len : (g.prev.setValue none).slots.length = c := by
        show (g.prev.slots.set g.prev.pos none).length = c
        rw [prev_slots, List.length_set, hlen]
      have hg2pos : (g.prev.setValue none).pos = (bs.length - (k + 1)) % c := by
        show g.prev.pos = _
        rw [hprevpos]
        congr 1
        omega
      have hg2slots : (g.prev.setValue none).slots =
          g.slots.set ((bs.length - 1 - k) % c) none := by
        show g.prev.slots.set g.prev.pos none = _
        rw [prev_slots, hprevpos]
      have hchar2 : ∀ t, t < c →
          (g.prev.setValue none).slots.getD ((bs.length - 1 - t) % c) none =
            if t < k + 1 then none else bs[bs.length - 1 - t]? := by
        intro t htc
        rw [hg2slots]
        by_cases htk : t = k
        · subst htk
          rw [getD_set_self _ _ (by rw [hlen]; exact Nat.mod_lt _ hc)]
          rw [if_pos (by omega)]
        · have hne : (bs.length - 1 - t) % c ≠ (bs.length - 1 - k) % c := by
            intro heq
            have := sub_mod_inj (bs.length - 1) c t k htc hkc (by omega) (by omega) heq
            omega
          rw [getD_set_ne _ _ _ (Ne.symm hne), hchar t htc]
          by_cases htlt : t < k
          · rw [if_pos htlt, if_pos (by omega)]
          · rw [if_neg htlt, if_neg (by omega)]
      -- the buffer and the rescanned highP after the pop
      have hbuf2 : ∀ i, lookupR (insertR r.buf r.highP (g.prev.setValue none)) i =
          if q = i then some (g.prev.setValue none) else lookupR r.buf i := by
        intro i
        rw [hhigh, lookupR_insertR]
      have hcond : ∀ j, j ≠ q →
          ringHasPrevAt (insertR r.buf r.highP (g.prev.setValue none)) j = false := by
        intro j hj
        unfold ringHasPrevAt
        rw [hbuf2 j, if_neg (Ne.symm hj), hnone j hj]
      have hg2prevpos : (g.prev.setValue none).prev.pos = (bs.length - 1 - (k + 1)) % c := by
        rw [prev_pos, hg2len, hg2pos, mod_pred (bs.length - (k + 1)) c hc (by omega)]
        congr 1
        omega
      have hg2prevval : (g.prev.setValue none).prev.value =
          if k + 1 < c then bs[bs.length - 1 - (k + 1)]? else none := by
        rw [show (g.prev.setValue none).prev.value =
            (g.prev.setValue none).prev.slots.getD (g.prev.setValue none).prev.pos none from rfl,
          prev_slots, hg2prevpos]
        by_cases hk1 : k + 1 < c
        · rw [hchar2 (k + 1) hk1, if_neg (Nat.lt_irrefl _), if_pos hk1]
        · have hk1c : k + 1 = c := by omega
          rw [if_neg hk1]
          rw [show bs.length - 1 - (k + 1) = bs.length - 1 - c + 0 from by omega]
          have : (bs.length - 1 - c + 0) % c = (bs.length - 1 - 0) % c := by
            rw [Nat.add_zero, Nat.sub_zero,
              show bs.length - 1 = (bs.length - 1 - c) + c from by omega,
              Nat.add_mod_right,
              show bs.length - 1 - c + c - c = bs.length - 1 - c from by omega]
          rw [this, hchar2 0 hc, if_pos (by omega)]
      have hhigh2 : ((findScan (insertR r.buf r.highP (g.prev.setValue none)) r.highP).getD
          r.highP) = q := by
        by_cases hk1 : k + 1 < c
        · have hcondq : ringHasPrevAt (insertR r.buf r.highP (g.prev.setValue none))
              r.highP = true := by
            unfold ringHasPrevAt
            rw [hbuf2 r.highP, if_pos hhigh.symm]
            show ((g.prev.setValue none).prev.value).isSome = true
            rw [hg2prevval, if_pos hk1]
            cases hvq2 : bs[bs.length - 1 - (k + 1)]? with
            | none =>
              rw [List.getElem?_eq_none_iff] at hvq2
              omega
            | some w => rfl
          rw [findScan_self _ r.highP hcondq]
          exact hhigh
        · have hnofind : findScan (insertR r.buf r.highP (g.prev.setValue none))
              r.highP = none := by
            apply findScan_none
            intro j hj
            by_cases hjq : j = q
            · rw [hjq]
              unfold ringHasPrevAt
              rw [hbuf2 q, if_pos rfl]
              show ((g.prev.setValue none).prev.value).isSome = false
              rw [hg2prevval, if_neg hk1]
              rfl
            · exact hcond j hjq
          rw [hnofind]
          exact hhigh
      -- recursive step
      have hrec := ihm (k + 1) (by omega)
        ⟨r.p, r.bufCap, insertR r.buf r.highP (g.prev.setValue none),
          (findScan (insertR r.buf r.highP (g.prev.setValue none)) r.highP).getD r.highP⟩
        (g.prev.setValue none)
        hhigh2
        (fun i hi => by
          show lookupR (insertR r.buf r.highP (g.prev.setValue none)) i = none
          rw [hbuf2 i, if_neg (Ne.symm hi)]
          exact hnone i hi)
        (by
          show lookupR (insertR r.buf r.highP (g.prev.setValue none)) q =
            some (g.prev.setValue none)
          rw [hbuf2 q, if_pos rfl])
        hg2len hg2pos hchar2
      -- assemble
      have hstep : popN r (m + 1 + 1) =
          ((r.pop).1 :: (popN (r.pop).2 (m + 1)).1, (popN (r.pop).2 (m + 1)).2) := rfl
      rw [hstep, hpopped]
      show Except.ok v :: (popN _ (m + 1)).1 = _
      rw [hrec]
      -- list bookkeeping on the reverse
      have hkrev : k < bs.reverse.length := by
        rw [List.length_reverse]
        omega
      have hrevk : bs.reverse[k]? = some v := by
        rw [List.getElem?_reverse (by omega), hvq]
      have hgetk : bs.reverse[k] = v := by
        have := List.getElem?_eq_getElem hkrev
        rw [hrevk] at this
        exact (Option.some.inj this).symm
      rw [List.drop_eq_getElem_cons hkrev, hgetk, List.take_succ_cons]
      simp

/-- Claim C6 (amended): for more than `c` writes at one rank into a fresh
store of capacity `c`, the next `c` Pops return exactly the `c` most recent
entries, newest first, and the `(c+1)`-th Pop fails — with the corrupt-entry
(type-assertion) error, not the empty-buffer error. -/
theorem c6_overflow_drain {α : Type} (c p0 q : Nat) (bs : List α) (r : RingBuffer α)
    (hc : 0 < c) (hN : c < bs.length)
    (hw : applyWrites (newRingBuffer α p0 c) (bs.map (fun b => (q, b))) = some r) :
    (popN r (c + 1)).1 =
      (bs.reverse.take c).map Except.ok ++ [Except.error PopError.corruptEntry] := by
  obtain ⟨r', g, hw', hhigh, hnone, hlook, hlen, hpos, hchar⟩ :=
    c6_writes c p0 q hc bs (by rintro rfl; simp at hN)
  have hrr : r' = r := Option.some.inj (hw'.symm.trans hw)
  rw [← hrr]
  have hdrain := c6_drain c q bs hc hN c 0 (by omega) r' g hhigh hnone hlook hlen
    hpos
    (fun t htc => by
      rw [if_neg (Nat.not_lt_zero t)]
      exact hchar t htc (by omega))
  rw [hdrain, List.drop_zero]

def c6wStore : RingBuffer String :=
  (applyWrites (newRingBuffer String 0 2) (["0", "1", "2"].map (fun b => (1, b)))).getD
    (newRingBuffer String 0 2)

theorem c6_overflow_drain_witness :
    (popN c6wStore 3).1 =
      [Except.ok "2", Except.ok "1", Except.error PopError.corruptEntry] :=
  c6_overflow_drain 2 0 1 ["0", "1", "2"] c6wStore (by decide) (by decide) rfl

def c6cexStore : RingBuffer String :=
  (applyWrites (newRingBuffer String 0 1) [(0, "a"), (0, "b")]).getD (newRingBuffer String 0 1)

/-- Capacity 1, two writes at one rank: the single retained entry pops, and
the next Pop fails with the corrupt-entry error, not a report that the
store is empty (the empty-buffer error). -/
theorem c6_not_empty_report_counterexample :
    (popN c6cexStore 2).1 = [Except.ok "b", Except.error PopError.corruptEntry] ∧
    (popN c6cexStore 2).1 ≠ [Except.ok "b", Except.error PopError.emptyBuffer] :=
  ⟨rfl, by decide⟩

/-! ### Claim C7: the overflow scenario -/

def c7Store3 : RingBuffer String :=
  (applyDefWrites (newRingBuffer String 1 3) ["0", "1", "2", "3", "4", "5", "6"]).getD
    (newRingBuffer String 1 3)

def c7Store5 : RingBuffer String :=
  (applyDefWrites (newRingBuffer String 1 5) ["0", "1", "2", "3", "4", "5", "6"]).getD
    (newRingBuffer String 1 5)

/-- With capacity 3 — as the claim states — writing "0".."6" and popping
five times does not yield "6","5","4","3","2": a capacity-3 ring retains
only three entries, so the run yields "6","5","4" and then errors. -/
theorem c7_capacity_three_counterexample :
    (popN c7Store3 5).1 =
      [Except.ok "6", Except.ok "5", Except.ok "4",
        Except.error PopError.corruptEntry, Except.error PopError.corruptEntry] ∧
    (popN c7Store3 5).1 ≠
      [Except.ok "6", Except.ok "5", Except.ok "4", Except.ok "3", Except.ok "2"] :=
  ⟨rfl, by decide⟩

/-- Claim C7 (amended): with capacity 5 — the capacity the cited test
`testRingBufferOverflow` actually uses — writing "0".."6" at the default
priority and popping yields "6","5","4","3","2" and then an error. -/
theorem c7_overflow_scenario :
    (popN c7Store5 6).1 =
      [Except.ok "6", Except.ok "5", Except.ok "4", Except.ok "3", Except.ok "2",
        Except.error PopError.corruptEntry] := rfl

def c10cexStore : RingBuffer String :=
  ((((newRingBuffer String 0 1).pwrite 0 "a").getD (newRingBuffer String 0 1)).pop).2

/-- For a capacity-1 store drained to empty, the corrupt-entry failure of
`Pop` leaves the store exactly as it was — the backward cursor step is a
no-op on one slot — contradicting the claim that this failed Pop still
mutates the store. -/
theorem c10_capacity_one_counterexample :
    (c10cexStore.pop).1 = Except.error PopError.corruptEntry ∧
    (c10cexStore.pop).2 = c10cexStore :=
  ⟨rfl, rfl⟩

/-! ### Claim C5: the `Logger` batching front -/

/-- A Go byte-slice value as `AppendDone` stores it into the ring: a
reference to a backing array in the heap plus a length.
`bytes.Buffer.Bytes()` returns exactly such an aliasing slice
(`b.buf[b.off:]`), not a copy. -/
structure GoSlice where
  arr : Nat
  len : Nat
deriving DecidableEq

/-- The `Logger` (plog.go:22-26) with an explicit heap of backing arrays, so
that slice aliasing is visible: `heap` maps array ids to their bytes (a
list's length is its array's capacity; bytes past the accumulator's length
are junk), `aBufArr`/`aBufLen` model the `bytes.Buffer` accumulator `aBuf`
(backing array id and current length; its read offset stays 0 because the
Logger never reads from it), and `rb` is the store.  The mutex is not part
of the functional state. -/
structure LoggerState where
  heap : List (List Char)
  aBufArr : Nat
  aBufLen : Nat
  rb : RingBuffer GoSlice

/-- `NewLogger` (plog.go:29-35): `aBuf := bytes.NewBuffer([]byte{})`, a
buffer over an empty capacity-0 array (array id 0 of the heap). -/
def newLogger (rb : RingBuffer GoSlice) : LoggerState :=
  { heap := [[]], aBufArr := 0, aBufLen := 0, rb := rb }

/-- In-place write of `s` into array `a` at offset `off` (the `copy` inside
`bytes.Buffer.WriteString` when the data fits the capacity). -/
def writeSeg (a : List Char) (off : Nat) (s : List Char) : List Char :=
  a.take off ++ s ++ a.drop (off + s.length)

/-- `Logger.Append` (plog.go:49-51), i.e. `aBuf.WriteString(s)`: when the new
total fits the backing array's capacity the bytes are written in place
(`tryGrowByReslice`); otherwise a fresh array is allocated and the current
content plus `s` copied into it.  Go's `growSlice` allocates capacity at
least `max(len+n, 2*cap)`; the model uses exactly that lower bound (the Go
runtime may round the capacity up further, which only makes in-place reuse —
the aliasing behaviour at issue — more common, never less). -/
def LoggerState.append (st : LoggerState) (s : List Char) : LoggerState :=
  let a := st.heap.getD st.aBufArr []
  if st.aBufLen + s.length ≤ a.length then
    { st with heap := st.heap.set st.aBufArr (writeSeg a st.aBufLen s),
              aBufLen := st.aBufLen + s.length }
  else
    let cap' := max (st.aBufLen + s.length) (2 * a.length)
    let arr' := a.take st.aBufLen ++ s ++
      List.replicate (cap' - (st.aBufLen + s.length)) (Char.ofNat 0)
    { st with heap := st.heap ++ [arr'],
              aBufArr := st.heap.length,
              aBufLen := st.aBufLen + s.length }

/-- `Logger.AppendDone` (plog.go:56-59): `buf.PWrite(p, aBuf.Bytes())` then
`aBuf.Reset()`.  `Bytes()` hands the store a slice aliasing the
accumulator's backing array; `Reset()` keeps that array and only zeroes the
length.  `none` propagates the store's nil-ring crash. -/
def LoggerState.appendDone (st : LoggerState) (q : Nat) : Option LoggerState :=
  match st.rb.pwrite q ⟨st.aBufArr, st.aBufLen⟩ with
  | none => none
  | some rb' => some { st with rb := rb', aBufLen := 0 }

/-- `string(b)` for a popped slice: the first `len` bytes of its backing
array as that array is now. -/
def readSlice (heap : List (List Char)) (sl : GoSlice) : List Char :=
  (heap.getD sl.arr []).take sl.len

/-- `Pop` through the Logger's store, materialising the returned slice into
text at pop time. -/
def LoggerState.popText (st : LoggerState) : Except PopError (List Char) × LoggerState :=
  let pr := st.rb.pop
  (pr.1.map (readSlice st.heap), { st with rb := pr.2 })

/-- Two committed sessions: session one appends "ab" and commits at Major,
session two appends "cd" and commits at Major, against a capacity-3 store. -/
def c5Session : LoggerState :=
  let st0 := newLogger (newRingBuffer GoSlice 1 3)
  let st1 := st0.append ['a', 'b']
  let st2 := (st1.appendDone 2).getD st1
  let st3 := st2.append ['c', 'd']
  (st3.appendDone 2).getD st3

/-- Claim C5 evaluated at the failing input: after committing "ab" and then
"cd" in separate sessions, both Pops return "cd" — session two's `Append`
wrote through the backing array that session one's committed slice still
references, so the first committed entry was altered before it was popped
(the claim requires "cd" then "ab"). -/
theorem c5_commit_aliasing :
    (c5Session.popText).1 = Except.ok ['c', 'd'] ∧
    ((c5Session.popText).2.popText).1 = Except.ok ['c', 'd'] :=
  ⟨rfl, rfl⟩

end Plog
